import Mathlib

/-!
Verification of the `keyboard_suggestion` n-gram pipeline.

The development shallowly embeds the two Python source files:
  * `keyboard_suggestion/amazigh/pipeline.py`  — namespace `Pipeline`
    (text cleaning, sliding-window n-gram construction, Laplace-smoothed
    negative-log-probability estimation, "Policy A"),
  * `keyboard_suggestion/ngrams_tp.py`         — namespace `NgramsTp`
    (sentence-file reading, unsmoothed maximum-likelihood conditional
    probabilities, "Policy B", and the per-language driver).

Python `str` values are modelled as `List Char` (a Python string is a
sequence of Unicode code points), Python `dict`/`Counter`/`FreqDist`
tables as association lists with keys in first-insertion order, Python
`float` arithmetic as exact arithmetic in `ℚ` (and `ℝ` where `math.log`
is involved).
-/

namespace KeyboardSuggestion

/-- An n-gram: an ordered tuple of tokens (a Python `tuple` of `str`). -/
abbrev Gram := List String

/-- A frequency table: a Python `dict` mapping grams to counts, modelled as
an association list whose key order is insertion order. -/
abbrev Dict := List (Gram × ℕ)

/-- Python `d[k]` / `d.get(k)`: find the value stored under key `g`. -/
def dlookup {β : Type} (g : Gram) : List (Gram × β) → Option β
  | [] => none
  | p :: rest => if p.1 = g then some p.2 else dlookup g rest

/-- Python `sum(d.values())`. -/
def sumValues (d : Dict) : ℕ := (d.map Prod.snd).sum

/-- The distinct elements of a list, keeping the first occurrence of each,
in order: the key order of a Python `Counter` built from the list. -/
def firstDedup : List Gram → List Gram
  | [] => []
  | g :: gs => g :: (firstDedup gs).filter (fun h => decide (h ≠ g))

/-- Model of `collections.Counter(grams)` (also `nltk.FreqDist(grams)`):
each distinct gram, in first-occurrence order, paired with its
multiplicity. -/
def counterOf (grams : List Gram) : Dict :=
  (firstDedup grams).map (fun g => (g, grams.count g))

/-- Model of `build_ngrams(tokens, n)` from `pipeline.py` (and of the
sliding windows produced by `nltk.util.bigrams/trigrams/ngrams` in
`ngrams_tp.py`):
`[tuple(tokens[i:i+n]) for i in range(len(tokens) - n + 1)]`.
Here `len(tokens) - n + 1` is Python integer arithmetic, which is
negative (so the range is empty) when `n > len(tokens) + 1`; it is
rendered as the natural number `tokens.length + 1 - n`, which agrees with
`max 0 (len - n + 1)`. -/
def build_ngrams (tokens : List String) (n : ℕ) : List Gram :=
  (List.range (tokens.length + 1 - n)).map (fun i => (tokens.drop i).take n)

/-- The order-`n` frequency table built from a token sequence, as in
`process_corpus` (`counts[n].update(build_ngrams(tokens, n))`) and
`process_language` (`FreqDist(list(ngrams(tokens, n)))`). -/
def ngramCounts (tokens : List String) (n : ℕ) : Dict :=
  counterOf (build_ngrams tokens n)

namespace Pipeline

/-- The probability computed inside `calculate_probabilities` of
`amazigh/pipeline.py` for one table entry, before the log:
`prob = (count + 1) / (prefix_count + vocab_size)` with
`prefix_count = lower_counts[ngram[:-1]] if ngram[:-1] in lower_counts else 0`
and `vocab_size = len(lower_counts)`.  Python float division is modelled
exactly in `ℚ`. -/
def probsOf (ngram_counts lower_counts : Dict) : List (Gram × ℚ) :=
  ngram_counts.map fun p =>
    (p.1, ((p.2 : ℚ) + 1) /
      (((dlookup p.1.dropLast lower_counts).getD 0 : ℚ) + (lower_counts.length : ℚ)))

/-- Model of `calculate_probabilities(ngram_counts, lower_counts)` from
`amazigh/pipeline.py` ("Policy A"): maps each entry of `ngram_counts` to
`-log(prob)` with `prob` as in `probsOf`. -/
noncomputable def calculate_probabilities (ngram_counts lower_counts : Dict) :
    List (Gram × ℝ) :=
  (probsOf ngram_counts lower_counts).map fun p => (p.1, -Real.log (p.2 : ℝ))

end Pipeline

namespace NgramsTp

/-- Model of `calculate_probabilities(ngram_freq, prev_ngram_freq)` from
`ngrams_tp.py` ("Policy B"): for keys of length > 1, the unsmoothed
conditional probability `count / prev_count` with an explicit `0.0` when
the prefix count is zero; for the remaining (unigram) keys, the relative
frequency `count / sum(ngram_freq.values())` guarded against an empty
table. -/
def calculate_probabilities (ngram_freq prev_ngram_freq : Dict) :
    List (Gram × ℚ) :=
  ngram_freq.map fun p =>
    (p.1,
      if 1 < p.1.length then
        if 0 < (dlookup p.1.dropLast prev_ngram_freq).getD 0 then
          (p.2 : ℚ) / ((dlookup p.1.dropLast prev_ngram_freq).getD 0 : ℚ)
        else 0
      else
        if 0 < sumValues ngram_freq then
          (p.2 : ℚ) / (sumValues ngram_freq : ℚ)
        else 0)

/-- The inline unigram table of `process_language` (`ngram_probs[1]`):
`count / total_unigrams if total_unigrams > 0 else 0.0`. -/
def unigram_probs (tokens : List String) : List (Gram × ℚ) :=
  (ngramCounts tokens 1).map fun p =>
    (p.1, if 0 < sumValues (ngramCounts tokens 1) then
            (p.2 : ℚ) / (sumValues (ngramCounts tokens 1) : ℚ)
          else 0)

/-- The inline bigram table of `process_language` (`ngram_probs[2]`):
`count / count(w1)` against the unigram table, with an explicit `0.0`
when `count(w1)` is zero.  The source keys the unigram table by the word
`w1` itself; here a unigram is the singleton gram `[w1]`, which is
exactly `bigram[:-1]`. -/
def bigram_probs (tokens : List String) : List (Gram × ℚ) :=
  (ngramCounts tokens 2).map fun p =>
    (p.1, if 0 < (dlookup p.1.dropLast (ngramCounts tokens 1)).getD 0 then
            (p.2 : ℚ) / ((dlookup p.1.dropLast (ngramCounts tokens 1)).getD 0 : ℚ)
          else 0)

/-- The probability tables `ngram_probs[n]` built by `process_language`
for a given token sequence: inline formulas for orders 1 and 2, and
`calculate_probabilities` against the order-(n-1) table for the higher
orders. -/
def ngram_probs (tokens : List String) : ℕ → List (Gram × ℚ)
  | 1 => unigram_probs tokens
  | 2 => bigram_probs tokens
  | n => calculate_probabilities (ngramCounts tokens n) (ngramCounts tokens (n - 1))

end NgramsTp

/-! ### The normalizer of `amazigh/pipeline.py`

Model of `clean_text`.  Each `re.sub(..., " ", text)` on line 9-12 is a
left-to-right scan replacing non-overlapping matches by one space; line
13 replaces every character outside the allowed class by a space; line 14
collapses whitespace runs to single spaces and strips the ends. -/

/-- The character set matched by Python's `\s` on `str` (identically, the
characters for which `str.isspace()` holds). -/
def pyIsSpace (c : Char) : Bool :=
  decide (c.val = 0x20 ∨ (0x09 ≤ c.val ∧ c.val ≤ 0x0d) ∨
    (0x1c ≤ c.val ∧ c.val ≤ 0x1f) ∨ c.val = 0x85 ∨ c.val = 0xa0 ∨
    c.val = 0x1680 ∨ (0x2000 ≤ c.val ∧ c.val ≤ 0x200a) ∨ c.val = 0x2028 ∨
    c.val = 0x2029 ∨ c.val = 0x202f ∨ c.val = 0x205f ∨ c.val = 0x3000)

/-- The allowed character class of line 13 of `pipeline.py`:
`[0-9A-Za-z؀-ۿⴰ-⵿’'ʿ_\-\s]` — ASCII digits and
letters, the Arabic block, the Tifinagh block, the right single quote
U+2019, the apostrophe U+0027, the glottal-stop letter U+02BF, the
underscore, the hyphen, and whitespace. -/
def allowedChar (c : Char) : Bool :=
  decide ((0x30 ≤ c.val ∧ c.val ≤ 0x39) ∨ (0x41 ≤ c.val ∧ c.val ≤ 0x5a) ∨
    (0x61 ≤ c.val ∧ c.val ≤ 0x7a) ∨ (0x600 ≤ c.val ∧ c.val ≤ 0x6ff) ∨
    (0x2d30 ≤ c.val ∧ c.val ≤ 0x2d7f) ∨ c.val = 0x2019 ∨ c.val = 0x27 ∨
    c.val = 0x2bf ∨ c.val = 0x5f ∨ c.val = 0x2d) || pyIsSpace c

/-- Drop everything up to and including the first occurrence of `c`,
returning the (strictly shorter) remainder when `c` occurs. -/
def dropThroughFirst (c : Char) : (l : List Char) →
    Option { r : List Char // r.length < l.length }
  | [] => none
  | x :: xs =>
    if x = c then some ⟨xs, by simp⟩
    else
      match dropThroughFirst c xs with
      | some r => some ⟨r.1, by have := r.2; simp only [List.length_cons]; omega⟩
      | none => none

/-- Drop everything up to and including the first adjacent pair `a b`,
returning the (strictly shorter) remainder when such a pair occurs. -/
def dropThroughPair (a b : Char) : (l : List Char) →
    Option { r : List Char // r.length < l.length }
  | [] => none
  | [_] => none
  | x :: y :: xs =>
    if x = a ∧ y = b then some ⟨xs, by simp only [List.length_cons]; omega⟩
    else
      match dropThroughPair a b (y :: xs) with
      | some r => some ⟨r.1, by have := r.2; simp only [List.length_cons] at *; omega⟩
      | none => none

/-- Like `dropThroughPair`, but failing at the first newline: Python's `.`
without `re.DOTALL` cannot cross a line break. -/
def dropThroughPairNoNl (a b : Char) : (l : List Char) →
    Option { r : List Char // r.length < l.length }
  | [] => none
  | [_] => none
  | x :: y :: xs =>
    if x = a ∧ y = b then some ⟨xs, by simp only [List.length_cons]; omega⟩
    else if x = '\n' then none
    else
      match dropThroughPairNoNl a b (y :: xs) with
      | some r => some ⟨r.1, by have := r.2; simp only [List.length_cons] at *; omega⟩
      | none => none

/-- Match the literal scheme part `https?:\/\/` of the external-link
regex, returning the (strictly shorter) remainder. -/
def stripHttpScheme : (l : List Char) →
    Option { r : List Char // r.length < l.length }
  | 'h' :: 't' :: 't' :: 'p' :: rest =>
    match rest with
    | 's' :: ':' :: '/' :: '/' :: r =>
      some ⟨r, by simp only [List.length_cons]; omega⟩
    | ':' :: '/' :: '/' :: r =>
      some ⟨r, by simp only [List.length_cons]; omega⟩
    | _ => none
  | _ => none

/-- Model of `re.sub(r"<[^>]+>", " ", text)` (line 9): each maximal-munch
match `<`, one or more non-`>` characters, `>` is replaced by a space; a
`<` immediately followed by `>` (empty body) or with no closing `>` does
not match and scanning resumes at the next character. -/
def subTag : List Char → List Char
  | [] => []
  | x :: xs =>
    if x = '<' then
      match dropThroughFirst '>' xs with
      | some rest =>
        if xs.head? = some '>' then '<' :: subTag xs
        else ' ' :: subTag rest.1
      | none => '<' :: subTag xs
    else x :: subTag xs
termination_by l => l.length
decreasing_by
  all_goals (simp only [List.length_cons]; omega)

/-- Model of `re.sub(r"\{\{.*?\}\}", " ", text, flags=re.DOTALL)`
(line 10): a non-greedy match from a literal brace pair to the nearest
closing brace pair, spanning newlines, is replaced by a space; with no
closing pair, scanning resumes one character later. -/
def subTemplate : List Char → List Char
  | [] => []
  | [x] => [x]
  | x :: y :: xs =>
    if x = '\x7b' ∧ y = '\x7b' then
      match dropThroughPair '\x7d' '\x7d' xs with
      | some rest => ' ' :: subTemplate rest.1
      | none => x :: subTemplate (y :: xs)
    else x :: subTemplate (y :: xs)
termination_by l => l.length
decreasing_by
  all_goals (simp only [List.length_cons]; omega)

/-- Model of `re.sub(r"\[\[.*?\]\]", " ", text)` (line 11): like
`subTemplate` for `[[`…`]]`, except that without `re.DOTALL` the match
cannot span a newline. -/
def subIntLink : List Char → List Char
  | [] => []
  | [x] => [x]
  | x :: y :: xs =>
    if x = '[' ∧ y = '[' then
      match dropThroughPairNoNl ']' ']' xs with
      | some rest => ' ' :: subIntLink rest.1
      | none => x :: subIntLink (y :: xs)
    else x :: subIntLink (y :: xs)
termination_by l => l.length
decreasing_by
  all_goals (simp only [List.length_cons]; omega)

/-- Model of `re.sub(r"\[https?:\/\/[^\]]*\]", " ", text)` (line 12): a
bracket, the literal scheme, any non-`]` characters, and a closing
bracket are replaced by a space. -/
def subExtLink : List Char → List Char
  | [] => []
  | x :: xs =>
    if x = '[' then
      match stripHttpScheme xs with
      | some rest1 =>
        match dropThroughFirst ']' rest1.1 with
        | some rest2 => ' ' :: subExtLink rest2.1
        | none => '[' :: subExtLink xs
      | none => '[' :: subExtLink xs
    else x :: subExtLink xs
termination_by l => l.length
decreasing_by
  all_goals (simp only [List.length_cons]; omega)

/-- Model of `re.sub(r"[^0-9A-Za-z؀-ۿⴰ-⵿’'ʿ_\-\s]", " ", text)`
(line 13): every disallowed character becomes a space. -/
def charFilter (l : List Char) : List Char :=
  l.map fun c => if allowedChar c then c else ' '

/-- Model of `re.sub(r"\s+", " ", text)` (line 14): each maximal run of
whitespace characters becomes a single ASCII space. -/
def collapseWs : List Char → List Char
  | [] => []
  | [c] => if pyIsSpace c then [' '] else [c]
  | a :: b :: rest =>
    if pyIsSpace a then
      if pyIsSpace b then collapseWs (b :: rest)
      else ' ' :: collapseWs (b :: rest)
    else a :: collapseWs (b :: rest)

/-- Model of Python's `str.strip()` (line 14): remove leading and trailing
whitespace. -/
def stripWs (l : List Char) : List Char :=
  ((l.dropWhile pyIsSpace).reverse.dropWhile pyIsSpace).reverse

/-- Model of `clean_text(text)` from `amazigh/pipeline.py`, composing
lines 9-14 in order. -/
def clean_text (text : List Char) : List Char :=
  stripWs (collapseWs (charFilter (subExtLink (subIntLink (subTemplate (subTag text))))))

/-- Boolean check that no two adjacent characters are both whitespace,
i.e. the string has no whitespace run of length ≥ 2. -/
def noAdjacentWs : List Char → Bool
  | [] => true
  | [_] => true
  | a :: b :: rest => (!(pyIsSpace a && pyIsSpace b)) && noAdjacentWs (b :: rest)

/-! ### The driver of `ngrams_tp.py` -/

namespace NgramsTp

/-- The per-line treatment of `read_sentences_file`: strip the line, skip
it when empty, and otherwise keep the part after the first tab (the
sentence column) or the whole stripped line when there is no tab. -/
def parse_line (line : List Char) : Option (List Char) :=
  let s := stripWs line
  if s = [] then none
  else
    match dropThroughFirst '\t' s with
    | some rest => some rest.1
    | none => some s

/-- Model of `read_sentences_file(file_path)`: the file system is a
partial map from paths to lists of lines.  A missing file
(`FileNotFoundError`) yields no sentences plus a printed warning;
otherwise every non-blank line contributes one sentence. -/
def read_sentences_file (fs : String → Option (List (List Char)))
    (path : String) : List (List Char) × List String :=
  match fs path with
  | none => ([], ["Warning: File not found: " ++ path])
  | some ls => (ls.filterMap parse_line, [])

/-- The artifacts `process_language` writes for one language: the count
tables `{n}gram.json` and the probability tables `prob_{n}gram.json`
(the vocabulary artifacts are index bijections not needed by any claim). -/
structure LangOutput where
  freqs : ℕ → Dict
  probs : ℕ → List (Gram × ℚ)

/-- The observable outcome for one configured input in one run. -/
inductive RunItem where
  | processed : String → LangOutput → RunItem
  | skippedEmpty : String → RunItem
  | missing : String → String → RunItem

/-- Model of `process_language(lang, file_path)`: read the sentences,
return early (writing nothing) when there are none, and otherwise build
and write all tables.  Tokenisation (`process_text_to_tokens` /
`simple_tokenize`) is passed as a parameter `tok`: its `\w` character
classes come from the Unicode database, external to this embedding, and
no claim depends on it. -/
def process_language (tok : List (List Char) → List String)
    (fs : String → Option (List (List Char))) (lang path : String) : RunItem :=
  let sentences := (read_sentences_file fs path).1
  if sentences = [] then RunItem.skippedEmpty lang
  else
    RunItem.processed lang
      { freqs := fun n => ngramCounts (tok sentences) n
        probs := fun n => ngram_probs (tok sentences) n }

/-- Model of the `__main__` loop of `ngrams_tp.py`: for each configured
(language, path) pair, process the file when it exists and otherwise
print a warning and move on. -/
def main_run (tok : List (List Char) → List String)
    (fs : String → Option (List (List Char)))
    (files : List (String × String)) : List RunItem :=
  files.map fun lf =>
    if (fs lf.2).isSome then process_language tok fs lf.1 lf.2
    else RunItem.missing lf.1 lf.2

end NgramsTp

/-! ### Basic lemmas about the table model -/

theorem mem_firstDedup {g : Gram} : ∀ {l : List Gram}, g ∈ firstDedup l ↔ g ∈ l
  | [] => Iff.rfl
  | a :: l => by
    simp only [firstDedup, List.mem_cons, List.mem_filter, decide_eq_true_eq]
    constructor
    · rintro (rfl | ⟨h, -⟩)
      · exact .inl rfl
      · exact .inr (mem_firstDedup.1 h)
    · rintro (rfl | h)
      · exact .inl rfl
      · by_cases hg : g = a
        · exact .inl hg
        · exact .inr ⟨mem_firstDedup.2 h, hg⟩

theorem dlookup_map_keys (g : Gram) (f : Gram → ℕ) :
    ∀ ks : List Gram, dlookup g (ks.map fun k => (k, f k)) =
      if g ∈ ks then some (f g) else none
  | [] => rfl
  | k :: ks => by
    simp only [List.map_cons, dlookup, List.mem_cons]
    by_cases hk : k = g
    · subst hk; simp
    · simp only [hk, if_false, dlookup_map_keys g f ks]
      by_cases hg : g ∈ ks <;> simp [hg, Ne.symm hk]

theorem dlookup_counterOf (l : List Gram) (g : Gram) :
    dlookup g (counterOf l) = if g ∈ l then some (l.count g) else none := by
  rw [counterOf, dlookup_map_keys]
  simp [mem_firstDedup]

theorem dlookup_counterOf_getD (l : List Gram) (g : Gram) :
    (dlookup g (counterOf l)).getD 0 = l.count g := by
  rw [dlookup_counterOf]
  by_cases h : g ∈ l
  · simp [h]
  · simp [h, List.count_eq_zero_of_not_mem h]

theorem mem_counterOf {l : List Gram} {p : Gram × ℕ} :
    p ∈ counterOf l ↔ p.1 ∈ l ∧ p.2 = l.count p.1 := by
  constructor
  · intro h
    rcases List.mem_map.1 h with ⟨k, hk, rfl⟩
    exact ⟨mem_firstDedup.1 hk, rfl⟩
  · rintro ⟨h1, h2⟩
    rcases p with ⟨k, v⟩
    simp only at h1 h2
    subst h2
    exact List.mem_map.2 ⟨k, mem_firstDedup.2 h1, rfl⟩

theorem snd_le_sumValues {d : Dict} {p : Gram × ℕ} (h : p ∈ d) :
    p.2 ≤ sumValues d := by
  induction d with
  | nil => cases h
  | cons q d ih =>
    rcases List.mem_cons.1 h with rfl | h
    · simp [sumValues]
    · simp only [sumValues, List.map_cons, List.sum_cons]
      exact le_add_of_nonneg_of_le (Nat.zero_le _) (ih h)

theorem counterOf_nil_iff {l : List Gram} : counterOf l = [] ↔ l = [] := by
  cases l <;> simp [counterOf, firstDedup]

/-! ### Structure of `build_ngrams` -/

theorem length_build_ngrams (tokens : List String) (n : ℕ) :
    (build_ngrams tokens n).length = tokens.length + 1 - n := by
  simp [build_ngrams]

theorem build_ngrams_eq_nil_iff {tokens : List String} {n : ℕ} :
    build_ngrams tokens n = [] ↔ tokens.length < n := by
  rw [← List.length_eq_zero, length_build_ngrams]
  omega

theorem getElem?_build_ngrams (tokens : List String) (n i : ℕ) :
    (build_ngrams tokens n)[i]? =
      if i < tokens.length + 1 - n then some ((tokens.drop i).take n) else none := by
  by_cases h : i < tokens.length + 1 - n
  · rw [build_ngrams, List.getElem?_map, List.getElem?_range h, if_pos h]
    rfl
  · rw [if_neg h, List.getElem?_eq_none]
    rw [length_build_ngrams]
    omega

theorem mem_build_ngrams {tokens : List String} {n : ℕ} {g : Gram}
    (h : g ∈ build_ngrams tokens n) : tokens.length ≥ n := by
  by_contra hlt
  rw [build_ngrams_eq_nil_iff.2 (by omega)] at h
  cases h

theorem dropLast_take_of_le {α : Type} {n : ℕ} {l : List α} (h : n ≤ l.length) :
    (l.take n).dropLast = l.take (n - 1) := by
  rcases eq_or_lt_of_le h with heq | hlt
  · rw [heq, List.take_length, List.dropLast_eq_take]
  · exact List.dropLast_take hlt

/-- The order-(n-1) gram list extends the pointwise `dropLast` image of the
order-n gram list: dropping the last token of the `i`-th order-n window
gives the `i`-th order-(n-1) window. -/
theorem build_ngrams_pred (tokens : List String) (n : ℕ) (hn : 1 ≤ n)
    (hle : n ≤ tokens.length) :
    build_ngrams tokens (n - 1) =
      (build_ngrams tokens n).map List.dropLast ++
        [(tokens.drop (tokens.length + 1 - n)).take (n - 1)] := by
  have hk : tokens.length + 1 - (n - 1) = (tokens.length + 1 - n) + 1 := by omega
  rw [build_ngrams, hk, List.range_succ, List.map_append, List.map_singleton]
  rw [build_ngrams, List.map_map]
  congr 1
  apply List.map_congr_left
  intro i hi
  rw [List.mem_range] at hi
  have hlen : n ≤ (tokens.drop i).length := by
    rw [List.length_drop]; omega
  simp [dropLast_take_of_le hlen]

/-- Each occurrence of `g` in `l` yields an occurrence of `g.dropLast`
in the pointwise `dropLast` image of `l`. -/
theorem count_map_dropLast_ge (l : List Gram) (g : Gram) :
    l.count g ≤ (l.map List.dropLast).count g.dropLast := by
  induction l with
  | nil => simp
  | cons a l ih =>
    simp only [List.map_cons, List.count_cons, beq_iff_eq]
    by_cases h1 : a = g
    · subst h1
      simp only [if_pos rfl]
      omega
    · rw [if_neg h1]
      have h2 : (if a.dropLast = g.dropLast then 1 else 0) ≥ 0 := Nat.zero_le _
      omega

/-- Prefix dominance at the level of gram lists: an order-n gram never
occurs more often than its (n-1)-token prefix occurs as an order-(n-1)
gram of the same token sequence. -/
theorem count_build_ngrams_dropLast_le (tokens : List String) (n : ℕ)
    (hn : 1 ≤ n) (g : Gram) :
    (build_ngrams tokens n).count g ≤
      (build_ngrams tokens (n - 1)).count g.dropLast := by
  rcases le_or_lt n tokens.length with hle | hlt
  · calc (build_ngrams tokens n).count g
        ≤ ((build_ngrams tokens n).map List.dropLast).count g.dropLast :=
          count_map_dropLast_ge _ g
      _ ≤ (build_ngrams tokens (n - 1)).count g.dropLast := by
          rw [build_ngrams_pred tokens n hn hle, List.count_append]
          exact Nat.le_add_right _ _
  · rw [build_ngrams_eq_nil_iff.2 hlt]
    exact Nat.zero_le _

/-- C6 — N-gram construction: for a token sequence `T` of length `L` and
order `n`, `build_ngrams` produces exactly `max 0 (L - n + 1)` grams; the
`i`-th gram is `tokens[i..i+n)`; the output is the full ordered,
non-deduplicated sequence of sliding windows; and for `n > L` the result
is the empty list rather than an error. -/
theorem c6_build_ngrams_characterisation (tokens : List String) (n : ℕ) :
    (((build_ngrams tokens n).length : ℤ) = max 0 ((tokens.length : ℤ) - n + 1)) ∧
    (∀ i : ℕ, (build_ngrams tokens n)[i]? =
      if i < tokens.length + 1 - n then some ((tokens.drop i).take n) else none) ∧
    (build_ngrams tokens n = [] ↔ tokens.length < n) := by
  refine ⟨?_, getElem?_build_ngrams tokens n, build_ngrams_eq_nil_iff⟩
  rw [length_build_ngrams]
  omega

/-! ### Claims C1, C2, C10 -/

/-- Looking a key up in a table mapped entrywise by a key-dependent value
transformation. -/
theorem dlookup_map_entry {β γ : Type} (G : Gram × β → γ) (g : Gram) :
    ∀ l : List (Gram × β),
      dlookup g (l.map fun p => (p.1, G p)) = (dlookup g l).map (fun v => G (g, v))
  | [] => rfl
  | p :: rest => by
    rcases p with ⟨k, v⟩
    simp only [List.map_cons, dlookup]
    by_cases hk : k = g
    · subst hk
      simp
    · simp only [hk, if_false, dlookup_map_entry G g rest]

/-- What `calculate_probabilities` of `ngrams_tp.py` stores for a present
key of length > 1: the guarded conditional-probability formula. -/
theorem dlookup_calcB_formula (nf pf : Dict) (g : Gram) (c : ℕ)
    (hg : 1 < g.length) (h : dlookup g nf = some c) :
    dlookup g (NgramsTp.calculate_probabilities nf pf) =
      some (if 0 < (dlookup g.dropLast pf).getD 0 then
              (c : ℚ) / ((dlookup g.dropLast pf).getD 0 : ℚ)
            else 0) := by
  unfold NgramsTp.calculate_probabilities
  rw [dlookup_map_entry, h]
  simp only [Option.map_some']
  rw [if_pos hg]

/-- C1 — Policy A estimation: for every gram `g` present in the frequency
table, `calculate_probabilities` of `amazigh/pipeline.py` returns
`score(g) = -ln((count_n(g) + 1) / (count_{n-1}(prefix(g)) + V))`, where
the prefix count is looked up in the lower-order table with default 0 and
`V` is the number of distinct keys of the lower-order table; in
particular, for a gram with count 2 whose prefix has count 2 in a
lower-order table with 3 distinct keys, `prob = 0.6` and
`score = -ln(0.6)`. -/
theorem c1_policyA_formula :
    (∀ (ngram_counts lower_counts : Dict),
      (lower_counts.map Prod.fst).Nodup →
      ∀ (g : Gram) (c : ℕ), dlookup g ngram_counts = some c →
        dlookup g (Pipeline.calculate_probabilities ngram_counts lower_counts) =
          some (-Real.log (((c : ℝ) + 1) /
            (((dlookup g.dropLast lower_counts).getD 0 : ℝ) +
              ((lower_counts.map Prod.fst).dedup.length : ℝ))))) ∧
    dlookup ["a", "b"]
        (Pipeline.probsOf [(["a", "b"], 2)] [(["a"], 2), (["b"], 1), (["c"], 1)]) =
      some (3 / 5 : ℚ) ∧
    dlookup ["a", "b"]
        (Pipeline.calculate_probabilities [(["a", "b"], 2)]
          [(["a"], 2), (["b"], 1), (["c"], 1)]) =
      some (-Real.log 0.6) := by
  have key : ∀ (nc lc : Dict) (g : Gram) (c : ℕ), dlookup g nc = some c →
      dlookup g (Pipeline.calculate_probabilities nc lc) =
        some (-Real.log (((c : ℝ) + 1) /
          (((dlookup g.dropLast lc).getD 0 : ℝ) + (lc.length : ℝ)))) := by
    intro nc lc g c h
    have h1 : dlookup g (Pipeline.probsOf nc lc) =
        some (((c : ℚ) + 1) /
          (((dlookup g.dropLast lc).getD 0 : ℚ) + (lc.length : ℚ))) := by
      unfold Pipeline.probsOf
      rw [dlookup_map_entry, h]
      rfl
    unfold Pipeline.calculate_probabilities
    rw [dlookup_map_entry, h1]
    simp only [Option.map_some']
    congr 2
    push_cast
    ring
  refine ⟨?_, ?_, ?_⟩
  · intro nc lc hnodup g c h
    rw [key nc lc g c h, List.Nodup.dedup hnodup, List.length_map]
  · norm_num [Pipeline.probsOf, dlookup]
  · rw [key [(["a", "b"], 2)] [(["a"], 2), (["b"], 1), (["c"], 1)] ["a", "b"] 2
      (by decide)]
    norm_num [dlookup]

/-- C2 — Policy B estimation: every unigram of the inline table of
`process_language` gets `count / sum(all unigram counts)`; every longer
gram present in the table handed to `calculate_probabilities` of
`ngrams_tp.py` gets `count / prefix_count`, and an explicit `0.0` (not an
error, not smoothed) when the prefix count is 0. -/
theorem c2_policyB_formula :
    (∀ (tokens : List String) (g : Gram) (c : ℕ),
      dlookup g (ngramCounts tokens 1) = some c →
      dlookup g (NgramsTp.unigram_probs tokens) =
        some ((c : ℚ) / (sumValues (ngramCounts tokens 1) : ℚ))) ∧
    (∀ (ngram_freq prev_ngram_freq : Dict) (g : Gram) (c : ℕ),
      1 < g.length → dlookup g ngram_freq = some c →
      dlookup g (NgramsTp.calculate_probabilities ngram_freq prev_ngram_freq) =
        some (if 0 < (dlookup g.dropLast prev_ngram_freq).getD 0 then
                (c : ℚ) / ((dlookup g.dropLast prev_ngram_freq).getD 0 : ℚ)
              else 0) ∧
      ((dlookup g.dropLast prev_ngram_freq).getD 0 = 0 →
        dlookup g (NgramsTp.calculate_probabilities ngram_freq prev_ngram_freq) =
          some 0)) := by
  constructor
  · intro tokens g c h
    unfold NgramsTp.unigram_probs
    rw [dlookup_map_entry, h]
    simp only [Option.map_some']
    congr 1
    by_cases ht : 0 < sumValues (ngramCounts tokens 1)
    · rw [if_pos ht]
    · rw [if_neg ht]
      have h0 : sumValues (ngramCounts tokens 1) = 0 := by omega
      rw [h0, Nat.cast_zero, div_zero]
  · intro nf pf g c hg h
    refine ⟨dlookup_calcB_formula nf pf g c hg h, fun hz => ?_⟩
    rw [dlookup_calcB_formula nf pf g c hg h, hz]
    norm_num

/-- C10 — implicit prefix-dominance invariant: when the order-n and
order-(n-1) tables are built from the same token sequence (n ≥ 2), the
prefix of every key of the order-n table is a key of the order-(n-1)
table, with a count at least as large. -/
theorem c10_prefix_dominance_invariant (tokens : List String) (n : ℕ)
    (hn : 2 ≤ n) (g : Gram) (c : ℕ)
    (h : dlookup g (ngramCounts tokens n) = some c) :
    ∃ c' : ℕ, dlookup g.dropLast (ngramCounts tokens (n - 1)) = some c' ∧
      c ≤ c' := by
  rw [ngramCounts, dlookup_counterOf] at h
  by_cases hg : g ∈ build_ngrams tokens n
  · rw [if_pos hg] at h
    have hc : c = (build_ngrams tokens n).count g := (Option.some_inj.1 h).symm
    have hpos : 0 < (build_ngrams tokens n).count g := List.count_pos_iff.2 hg
    have hdom := count_build_ngrams_dropLast_le tokens n (by omega) g
    have hmem : g.dropLast ∈ build_ngrams tokens (n - 1) :=
      List.count_pos_iff.1 (lt_of_lt_of_le hpos hdom)
    refine ⟨(build_ngrams tokens (n - 1)).count g.dropLast, ?_, ?_⟩
    · rw [ngramCounts, dlookup_counterOf, if_pos hmem]
    · omega
  · rw [if_neg hg] at h
    cases h

/-! ### Claims C3, C4, C8 -/

theorem ratio_bound (c total : ℕ) (hct : c ≤ total) :
    0 ≤ (if 0 < total then (c : ℚ) / (total : ℚ) else 0) ∧
      (if 0 < total then (c : ℚ) / (total : ℚ) else 0) ≤ 1 := by
  split
  · next h =>
    refine ⟨div_nonneg (Nat.cast_nonneg c) (Nat.cast_nonneg total), ?_⟩
    rw [div_le_one (by exact_mod_cast h)]
    exact_mod_cast hct
  · next => exact ⟨le_refl 0, zero_le_one⟩

theorem ngramCounts_nil (n : ℕ) (hn : 1 ≤ n) :
    ngramCounts ([] : List String) n = [] := by
  rw [ngramCounts, build_ngrams_eq_nil_iff.2 (by simpa using hn)]
  rfl

theorem unigram_probs_mem_bound (tokens : List String) {g : Gram} {q : ℚ}
    (h : (g, q) ∈ NgramsTp.unigram_probs tokens) : 0 ≤ q ∧ q ≤ 1 := by
  unfold NgramsTp.unigram_probs at h
  rcases List.mem_map.1 h with ⟨p, hp, he⟩
  injection he with he1 he2
  subst he2
  exact ratio_bound p.2 (sumValues (ngramCounts tokens 1)) (snd_le_sumValues hp)

theorem bigram_probs_mem_bound (tokens : List String) {g : Gram} {q : ℚ}
    (h : (g, q) ∈ NgramsTp.bigram_probs tokens) : 0 ≤ q ∧ q ≤ 1 := by
  unfold NgramsTp.bigram_probs at h
  rcases List.mem_map.1 h with ⟨p, hp, he⟩
  injection he with he1 he2
  subst he2
  rcases mem_counterOf.1 hp with ⟨hmem, hcnt⟩
  refine ratio_bound p.2 _ ?_
  rw [ngramCounts, dlookup_counterOf_getD, hcnt]
  exact count_build_ngrams_dropLast_le tokens 2 (by omega) p.1

theorem calcB_counter_mem_bound (tokens : List String) (n : ℕ) (hn : 1 ≤ n)
    {g : Gram} {q : ℚ}
    (h : (g, q) ∈ NgramsTp.calculate_probabilities (ngramCounts tokens n)
      (ngramCounts tokens (n - 1))) : 0 ≤ q ∧ q ≤ 1 := by
  unfold NgramsTp.calculate_probabilities at h
  rcases List.mem_map.1 h with ⟨p, hp, he⟩
  injection he with he1 he2
  subst he2
  rcases mem_counterOf.1 hp with ⟨hmem, hcnt⟩
  by_cases hlen : 1 < p.1.length
  · rw [if_pos hlen]
    refine ratio_bound p.2 _ ?_
    rw [ngramCounts, dlookup_counterOf_getD, hcnt]
    exact count_build_ngrams_dropLast_le tokens n hn p.1
  · rw [if_neg hlen]
    exact ratio_bound p.2 _ (snd_le_sumValues hp)

/-- C4 — Policy B range guarantee: when the tables of successive orders
are built from the same token sequence, every probability produced by
`process_language` for orders 1 through 5 lies in `[0, 1]`. -/
theorem c4_policyB_range (tokens : List String) (n : ℕ) (h1 : 1 ≤ n)
    (h5 : n ≤ 5) (g : Gram) (q : ℚ)
    (hmem : (g, q) ∈ NgramsTp.ngram_probs tokens n) : 0 ≤ q ∧ q ≤ 1 := by
  interval_cases n
  · exact unigram_probs_mem_bound tokens hmem
  · exact bigram_probs_mem_bound tokens hmem
  · exact calcB_counter_mem_bound tokens 3 (by omega) hmem
  · exact calcB_counter_mem_bound tokens 4 (by omega) hmem
  · exact calcB_counter_mem_bound tokens 5 (by omega) hmem

/-- C3 (amended) — Policy A positivity: when the order-n and order-(n-1)
tables are built from the same token sequence (as `process_corpus` does),
every probability computed by the Policy A estimator lies in `(0, 1]` and
every emitted score `-ln(prob)` is ≥ 0.  (The claim's quantification over
arbitrary table pairs is refuted by `c3_counterexample` below.) -/
theorem c3_policyA_positivity_same_corpus :
    (∀ (tokens : List String) (n : ℕ), 2 ≤ n →
      ∀ (g : Gram) (q : ℚ),
        (g, q) ∈ Pipeline.probsOf (ngramCounts tokens n)
          (ngramCounts tokens (n - 1)) →
        0 < q ∧ q ≤ 1) ∧
    (∀ (tokens : List String) (n : ℕ), 2 ≤ n →
      ∀ (g : Gram) (s : ℝ),
        (g, s) ∈ Pipeline.calculate_probabilities (ngramCounts tokens n)
          (ngramCounts tokens (n - 1)) →
        0 ≤ s) := by
  have key : ∀ (tokens : List String) (n : ℕ), 2 ≤ n →
      ∀ p ∈ Pipeline.probsOf (ngramCounts tokens n) (ngramCounts tokens (n - 1)),
        0 < p.2 ∧ p.2 ≤ 1 := by
    intro tokens n hn p hp
    unfold Pipeline.probsOf at hp
    rcases List.mem_map.1 hp with ⟨r, hr, he⟩
    rcases mem_counterOf.1 hr with ⟨hmem, hcnt⟩
    have htok : n ≤ tokens.length := mem_build_ngrams hmem
    have hV : 1 ≤ (ngramCounts tokens (n - 1)).length := by
      refine List.length_pos.2 fun hnil => ?_
      rw [ngramCounts, counterOf_nil_iff, build_ngrams_eq_nil_iff] at hnil
      omega
    have hdom : r.2 ≤ (dlookup r.1.dropLast (ngramCounts tokens (n - 1))).getD 0 := by
      rw [ngramCounts, dlookup_counterOf_getD, hcnt]
      exact count_build_ngrams_dropLast_le tokens n (by omega) r.1
    have hval : p.2 = ((r.2 : ℚ) + 1) /
        (((dlookup r.1.dropLast (ngramCounts tokens (n - 1))).getD 0 : ℚ) +
          ((ngramCounts tokens (n - 1)).length : ℚ)) := by
      rw [← he]
    have hden : (0 : ℚ) <
        ((dlookup r.1.dropLast (ngramCounts tokens (n - 1))).getD 0 : ℚ) +
          ((ngramCounts tokens (n - 1)).length : ℚ) := by
      have h1 : (1 : ℚ) ≤ ((ngramCounts tokens (n - 1)).length : ℚ) := by
        exact_mod_cast hV
      have h2 : (0 : ℚ) ≤
          ((dlookup r.1.dropLast (ngramCounts tokens (n - 1))).getD 0 : ℚ) :=
        Nat.cast_nonneg _
      linarith
    rw [hval]
    constructor
    · exact div_pos (by positivity) hden
    · rw [div_le_one hden]
      have hsum : r.2 + 1 ≤
          (dlookup r.1.dropLast (ngramCounts tokens (n - 1))).getD 0 +
            (ngramCounts tokens (n - 1)).length := by omega
      exact_mod_cast hsum
  constructor
  · intro tokens n hn g q hmem
    exact key tokens n hn (g, q) hmem
  · intro tokens n hn g s hmem
    unfold Pipeline.calculate_probabilities at hmem
    rcases List.mem_map.1 hmem with ⟨p, hp, he⟩
    injection he with he1 he2
    subst he2
    have hb := key tokens n hn p hp
    have hlog : Real.log ((p.2 : ℝ)) ≤ 0 :=
      Real.log_nonpos (by exact_mod_cast le_of_lt hb.1) (by exact_mod_cast hb.2)
    linarith

/-- Counterexample to C3 as stated: for the arbitrary table pair
`{(a,b): 3}` against `{(c,): 1}` (prefix `(a,)` absent, one distinct
lower-order key), the Policy A estimator emits the score
`-ln((3+1)/(0+1)) = -ln 4 < 0`, refuting "every emitted score is ≥ 0 for
any frequency table together with any lower-order table". -/
theorem c3_counterexample :
    ¬ (∀ (g : Gram) (s : ℝ),
        (g, s) ∈ Pipeline.calculate_probabilities [(["a", "b"], 3)] [(["c"], 1)] →
        0 ≤ s) := by
  intro h
  have hm : (((["a", "b"] : Gram), -Real.log 4)) ∈
      Pipeline.calculate_probabilities [(["a", "b"], 3)] [(["c"], 1)] := by
    unfold Pipeline.calculate_probabilities Pipeline.probsOf
    simp +decide only [dlookup]
    norm_num [show (("c" : String) = "a") = False from eq_false (by decide)]
  have h4 := h ["a", "b"] (-Real.log 4) hm
  have hlog : 0 < Real.log 4 := Real.log_pos (by norm_num)
  linarith

/-- C8 — division safety on empty input: for the empty token sequence all
frequency tables of orders 1..5 are empty and both policies' probability
tables are empty (no division is ever attempted); moreover Policy B
returns an explicit 0 whenever a prefix denominator is 0. -/
theorem c8_empty_input_safety :
    (∀ n : ℕ, 1 ≤ n →
      ngramCounts ([] : List String) n = [] ∧
      NgramsTp.ngram_probs [] n = [] ∧
      Pipeline.probsOf (ngramCounts ([] : List String) n)
        (ngramCounts [] (n - 1)) = [] ∧
      Pipeline.calculate_probabilities (ngramCounts ([] : List String) n)
        (ngramCounts [] (n - 1)) = []) ∧
    (∀ (ngram_freq prev_ngram_freq : Dict) (g : Gram) (c : ℕ),
      1 < g.length → dlookup g ngram_freq = some c →
      (dlookup g.dropLast prev_ngram_freq).getD 0 = 0 →
      dlookup g (NgramsTp.calculate_probabilities ngram_freq prev_ngram_freq) =
        some 0) := by
  constructor
  · intro n hn
    have hc := ngramCounts_nil n hn
    refine ⟨hc, ?_, ?_, ?_⟩
    · rcases n with _ | _ | _ | m
      · omega
      · rfl
      · rfl
      · show NgramsTp.calculate_probabilities
          (ngramCounts [] (m + 3)) (ngramCounts [] (m + 3 - 1)) = []
        rw [ngramCounts_nil (m + 3) (by omega)]
        rfl
    · rw [hc]; rfl
    · rw [hc]; rfl
  · intro nf pf g c hg h hz
    rw [dlookup_calcB_formula nf pf g c hg h, hz]
    norm_num

/-- Witness for C1: the spec's own worked example, gram `(a,b)` with
count 2, prefix count 2, vocabulary 3. -/
theorem c1_witness :
    dlookup ["a", "b"]
        (Pipeline.calculate_probabilities [(["a", "b"], 2)]
          [(["a"], 2), (["b"], 1), (["c"], 1)]) =
      some (-Real.log ((((2 : ℕ) : ℝ) + 1) /
        (((dlookup (["a", "b"] : Gram).dropLast
            [(["a"], 2), (["b"], 1), (["c"], 1)]).getD 0 : ℝ) +
          ((([(["a"], 2), (["b"], 1), (["c"], 1)] : Dict).map
              Prod.fst).dedup.length : ℝ)))) :=
  c1_policyA_formula.1 [(["a", "b"], 2)] [(["a"], 2), (["b"], 1), (["c"], 1)]
    (by decide) ["a", "b"] 2 (by decide)

/-- Witness for C2: unigram `(a,)` with count 2 among 3 tokens, and a
bigram whose prefix is absent from the lower-order table. -/
theorem c2_witness :
    (dlookup ["a"] (NgramsTp.unigram_probs ["a", "a", "b"]) =
      some (((2 : ℕ) : ℚ) / (sumValues (ngramCounts ["a", "a", "b"] 1) : ℚ))) ∧
    dlookup ["a", "b"] (NgramsTp.calculate_probabilities [(["a", "b"], 1)] []) =
      some 0 :=
  ⟨c2_policyB_formula.1 ["a", "a", "b"] ["a"] 2 (by decide),
    (c2_policyB_formula.2 [(["a", "b"], 1)] [] ["a", "b"] 1 (by decide)
      (by decide)).2 (by decide)⟩

/-- Witness for C10: tokens `a b c`, bigram `(a,b)` against the unigram
table. -/
theorem c10_witness :
    ∃ c' : ℕ,
      dlookup (["a", "b"] : Gram).dropLast (ngramCounts ["a", "b", "c"] (2 - 1)) =
        some c' ∧ 1 ≤ c' :=
  c10_prefix_dominance_invariant ["a", "b", "c"] 2 (by decide) ["a", "b"] 1
    (by decide)

/-- Witness for C3 (amended): tokens `a b c`, order 2; the bigram `(a,b)`
has count 1, prefix count 1, vocabulary 3, hence probability
`(1+1)/(1+3) = 1/2 ∈ (0,1]`. -/
theorem c3_witness : 0 < (1 / 2 : ℚ) ∧ (1 / 2 : ℚ) ≤ 1 := by
  refine c3_policyA_positivity_same_corpus.1 ["a", "b", "c"] 2 (by omega)
    ["a", "b"] (1 / 2) ?_
  show _ ∈ Pipeline.probsOf (ngramCounts ["a", "b", "c"] 2)
    (ngramCounts ["a", "b", "c"] 1)
  have e1 : ngramCounts ["a", "b", "c"] 1 =
      [(["a"], 1), (["b"], 1), (["c"], 1)] := by decide
  have e2 : ngramCounts ["a", "b", "c"] 2 =
      [(["a", "b"], 1), (["b", "c"], 1)] := by decide
  rw [e1, e2]
  unfold Pipeline.probsOf
  simp +decide only [List.map, dlookup]
  norm_num

/-- Witness for C4: tokens `a b`, order 2; the bigram `(a,b)` gets
probability `1/1 = 1 ∈ [0,1]`. -/
theorem c4_witness : 0 ≤ (1 : ℚ) ∧ (1 : ℚ) ≤ 1 := by
  refine c4_policyB_range ["a", "b"] 2 (by omega) (by omega) ["a", "b"] 1 ?_
  show _ ∈ NgramsTp.bigram_probs ["a", "b"]
  have e1 : ngramCounts ["a", "b"] 1 = [(["a"], 1), (["b"], 1)] := by decide
  have e2 : ngramCounts ["a", "b"] 2 = [(["a", "b"], 1)] := by decide
  unfold NgramsTp.bigram_probs
  rw [e1, e2]
  simp +decide only [List.map, dlookup]
  norm_num

/-- Witness for C8: empty token sequence at order 2, and an explicit-zero
Policy B lookup for a bigram with an absent prefix. -/
theorem c8_witness :
    (ngramCounts ([] : List String) 2 = [] ∧
      NgramsTp.ngram_probs [] 2 = [] ∧
      Pipeline.probsOf (ngramCounts ([] : List String) 2)
        (ngramCounts [] (2 - 1)) = [] ∧
      Pipeline.calculate_probabilities (ngramCounts ([] : List String) 2)
        (ngramCounts [] (2 - 1)) = []) ∧
    dlookup ["a", "b"]
        (NgramsTp.calculate_probabilities [(["a", "b"], 1)] []) = some 0 :=
  ⟨c8_empty_input_safety.1 2 (by omega),
    c8_empty_input_safety.2 [(["a", "b"], 1)] [] ["a", "b"] 1 (by decide)
      (by decide) rfl⟩

/-! ### Normalizer lemmas and claims C5, C7 -/

theorem subTag_eq_self {l : List Char} (h : '<' ∉ l) : subTag l = l := by
  induction l with
  | nil => simp [subTag]
  | cons x xs ih =>
    have hx : ¬ x = '<' := by
      rintro rfl
      exact h (List.mem_cons_self _ _)
    rw [subTag, if_neg hx, ih fun hm => h (List.mem_cons_of_mem _ hm)]

theorem subTemplate_eq_self {l : List Char} (h : '\x7b' ∉ l) : subTemplate l = l := by
  induction l with
  | nil => simp [subTemplate]
  | cons x xs ih =>
    cases xs with
    | nil => simp [subTemplate]
    | cons y ys =>
      have hx : ¬ (x = '\x7b' ∧ y = '\x7b') := by
        rintro ⟨rfl, -⟩
        exact h (List.mem_cons_self _ _)
      rw [subTemplate, if_neg hx, ih fun hm => h (List.mem_cons_of_mem _ hm)]

theorem subIntLink_eq_self {l : List Char} (h : '[' ∉ l) : subIntLink l = l := by
  induction l with
  | nil => simp [subIntLink]
  | cons x xs ih =>
    cases xs with
    | nil => simp [subIntLink]
    | cons y ys =>
      have hx : ¬ (x = '[' ∧ y = '[') := by
        rintro ⟨rfl, -⟩
        exact h (List.mem_cons_self _ _)
      rw [subIntLink, if_neg hx, ih fun hm => h (List.mem_cons_of_mem _ hm)]

theorem subExtLink_eq_self {l : List Char} (h : '[' ∉ l) : subExtLink l = l := by
  induction l with
  | nil => simp [subExtLink]
  | cons x xs ih =>
    have hx : ¬ x = '[' := by
      rintro rfl
      exact h (List.mem_cons_self _ _)
    rw [subExtLink, if_neg hx, ih fun hm => h (List.mem_cons_of_mem _ hm)]

theorem charFilter_allowed {l : List Char} (c : Char) (hc : c ∈ charFilter l) :
    allowedChar c = true := by
  rcases List.mem_map.1 hc with ⟨a, ha, rfl⟩
  by_cases h : allowedChar a = true
  · rw [if_pos h]
    exact h
  · rw [if_neg h]
    decide

theorem charFilter_eq_self {l : List Char}
    (h : ∀ c ∈ l, allowedChar c = true) : charFilter l = l := by
  have he : l.map (fun c => if allowedChar c then c else ' ') = l.map id :=
    List.map_congr_left fun a ha => by rw [if_pos (h a ha)]; rfl
  rw [charFilter, he, List.map_id]

theorem collapseWs_head (b : Char) (rest : List Char) :
    (collapseWs (b :: rest)).head? = some (if pyIsSpace b then ' ' else b) := by
  induction rest generalizing b with
  | nil => by_cases hb : pyIsSpace b <;> simp [collapseWs, hb]
  | cons c rest ih =>
    by_cases hb : pyIsSpace b
    · by_cases hc : pyIsSpace c
      · rw [collapseWs, if_pos hb, if_pos hc, ih c, if_pos hc, if_pos hb]
      · rw [collapseWs, if_pos hb, if_neg hc, if_pos hb]
        rfl
    · rw [collapseWs, if_neg hb, if_neg hb]
      rfl

theorem collapseWs_mem {l : List Char} (c : Char) (hc : c ∈ collapseWs l) :
    c ∈ l ∨ c = ' ' := by
  induction l with
  | nil => cases hc
  | cons a xs ih =>
    cases xs with
    | nil =>
      by_cases ha : pyIsSpace a
      · rw [collapseWs, if_pos ha] at hc
        right
        simpa using hc
      · rw [collapseWs, if_neg ha] at hc
        left
        simpa using hc
    | cons b rest =>
      rw [collapseWs] at hc
      by_cases ha : pyIsSpace a
      · rw [if_pos ha] at hc
        by_cases hb : pyIsSpace b
        · rw [if_pos hb] at hc
          rcases ih hc with h | h
          · exact .inl (List.mem_cons_of_mem _ h)
          · exact .inr h
        · rw [if_neg hb] at hc
          rcases List.mem_cons.1 hc with rfl | hc'
          · exact .inr rfl
          · rcases ih hc' with h | h
            · exact .inl (List.mem_cons_of_mem _ h)
            · exact .inr h
      · rw [if_neg ha] at hc
        rcases List.mem_cons.1 hc with rfl | hc'
        · exact .inl (List.mem_cons_self _ _)
        · rcases ih hc' with h | h
          · exact .inl (List.mem_cons_of_mem _ h)
          · exact .inr h

theorem collapseWs_ws_space {l : List Char} (c : Char) (hc : c ∈ collapseWs l)
    (hw : pyIsSpace c = true) : c = ' ' := by
  induction l with
  | nil => cases hc
  | cons a xs ih =>
    cases xs with
    | nil =>
      by_cases ha : pyIsSpace a
      · rw [collapseWs, if_pos ha] at hc
        simpa using hc
      · rw [collapseWs, if_neg ha] at hc
        have : c = a := by simpa using hc
        subst this
        rw [hw] at ha
        exact absurd rfl ha
    | cons b rest =>
      rw [collapseWs] at hc
      by_cases ha : pyIsSpace a
      · rw [if_pos ha] at hc
        by_cases hb : pyIsSpace b
        · rw [if_pos hb] at hc
          exact ih hc
        · rw [if_neg hb] at hc
          rcases List.mem_cons.1 hc with rfl | hc'
          · rfl
          · exact ih hc'
      · rw [if_neg ha] at hc
        rcases List.mem_cons.1 hc with rfl | hc'
        · rw [hw] at ha
          exact absurd rfl ha
        · exact ih hc'

theorem collapseWs_chain (l : List Char) :
    List.Chain' (fun a b => ¬(pyIsSpace a = true ∧ pyIsSpace b = true))
      (collapseWs l) := by
  induction l with
  | nil => simp [collapseWs]
  | cons a xs ih =>
    cases xs with
    | nil =>
      by_cases ha : pyIsSpace a <;> simp [collapseWs, ha]
    | cons b rest =>
      rw [collapseWs]
      by_cases ha : pyIsSpace a
      · rw [if_pos ha]
        by_cases hb : pyIsSpace b
        · rw [if_pos hb]
          exact ih
        · rw [if_neg hb]
          refine List.chain'_cons'.2 ⟨?_, ih⟩
          intro y hy
          rw [collapseWs_head b rest, if_neg hb] at hy
          have hby : b = y := by simpa using hy
          subst hby
          exact fun hcon => hb hcon.2
      · rw [if_neg ha]
        refine List.chain'_cons'.2 ⟨?_, ih⟩
        intro y hy
        exact fun hcon => ha hcon.1

theorem collapseWs_eq_self {l : List Char}
    (h1 : ∀ c ∈ l, pyIsSpace c = true → c = ' ')
    (h2 : List.Chain' (fun a b => ¬(pyIsSpace a = true ∧ pyIsSpace b = true)) l) :
    collapseWs l = l := by
  induction l with
  | nil => rfl
  | cons a xs ih =>
    cases xs with
    | nil =>
      by_cases ha : pyIsSpace a
      · rw [collapseWs, if_pos ha, h1 a (List.mem_cons_self _ _) ha]
      · rw [collapseWs, if_neg ha]
    | cons b rest =>
      rw [collapseWs]
      have hchain := List.chain'_cons.1 h2
      have h1' : ∀ c ∈ b :: rest, pyIsSpace c = true → c = ' ' :=
        fun c hc => h1 c (List.mem_cons_of_mem _ hc)
      by_cases ha : pyIsSpace a
      · by_cases hb : pyIsSpace b
        · exact absurd ⟨ha, hb⟩ hchain.1
        · rw [if_pos ha, if_neg hb, h1 a (List.mem_cons_self _ _) ha,
            ih h1' hchain.2]
      · rw [if_neg ha, ih h1' hchain.2]

theorem dropWhile_head_false (p : Char → Bool) (l : List Char) (c : Char)
    (hc : (l.dropWhile p).head? = some c) : p c = false := by
  induction l with
  | nil => cases hc
  | cons a xs ih =>
    cases ha : p a
    · rw [List.dropWhile_cons] at hc
      rw [ha] at hc
      simp only [Bool.false_eq_true, if_false, List.head?_cons] at hc
      rw [← Option.some_inj.1 hc]
      exact ha
    · rw [List.dropWhile_cons, ha] at hc
      simp only [if_true] at hc
      exact ih hc

theorem exists_prefix_dropWhile (p : Char → Bool) (l : List Char) :
    ∃ t, l = t ++ l.dropWhile p := by
  induction l with
  | nil => exact ⟨[], rfl⟩
  | cons a xs ih =>
    cases ha : p a
    · refine ⟨[], ?_⟩
      rw [List.dropWhile_cons, ha]
      rfl
    · rcases ih with ⟨t, ht⟩
      refine ⟨a :: t, ?_⟩
      rw [List.dropWhile_cons, ha]
      simpa using ht

theorem dropWhile_eq_self_of_head (p : Char → Bool) {l : List Char}
    (h : ∀ c, l.head? = some c → p c = false) : l.dropWhile p = l := by
  cases l with
  | nil => rfl
  | cons a xs =>
    rw [List.dropWhile_cons, h a rfl]
    rfl

theorem head?_append_left {α : Type} {l l' : List α} (h : l ≠ []) :
    (l ++ l').head? = l.head? := by
  cases l with
  | nil => exact absurd rfl h
  | cons a xs => rfl

theorem stripWs_eats (l : List Char) :
    ∃ u : List Char, l.dropWhile pyIsSpace = stripWs l ++ u.reverse := by
  rcases exists_prefix_dropWhile pyIsSpace (l.dropWhile pyIsSpace).reverse with ⟨u, hu⟩
  refine ⟨u, ?_⟩
  unfold stripWs
  conv_lhs => rw [← List.reverse_reverse (l.dropWhile pyIsSpace)]
  conv_lhs => rw [hu]
  rw [List.reverse_append]

theorem stripWs_decomp (l : List Char) : ∃ t u, l = t ++ stripWs l ++ u := by
  rcases exists_prefix_dropWhile pyIsSpace l with ⟨t, ht⟩
  rcases stripWs_eats l with ⟨u, hd⟩
  refine ⟨t, u.reverse, ?_⟩
  conv_lhs => rw [ht]
  conv_lhs => rw [hd]
  rw [List.append_assoc]

theorem stripWs_mem {l : List Char} (c : Char) (hc : c ∈ stripWs l) : c ∈ l := by
  rcases stripWs_decomp l with ⟨t, u, hl⟩
  rw [hl]
  simp only [List.mem_append]
  exact .inl (.inr hc)

theorem stripWs_chain {R : Char → Char → Prop} {l : List Char}
    (h : List.Chain' R l) : List.Chain' R (stripWs l) := by
  rcases stripWs_decomp l with ⟨t, u, hl⟩
  rw [hl] at h
  exact h.left_of_append.right_of_append

theorem stripWs_head_false (l : List Char) (c : Char)
    (hc : (stripWs l).head? = some c) : pyIsSpace c = false := by
  rcases stripWs_eats l with ⟨u, hd⟩
  have hne : stripWs l ≠ [] := by
    intro h0
    rw [h0] at hc
    cases hc
  refine dropWhile_head_false pyIsSpace l c ?_
  rw [hd, head?_append_left hne]
  exact hc

theorem stripWs_last_false (l : List Char) (c : Char)
    (hc : (stripWs l).getLast? = some c) : pyIsSpace c = false := by
  unfold stripWs at hc
  rw [List.getLast?_reverse] at hc
  exact dropWhile_head_false pyIsSpace _ c hc

theorem stripWs_eq_self {l : List Char}
    (hh : ∀ c, l.head? = some c → pyIsSpace c = false)
    (hl : ∀ c, l.getLast? = some c → pyIsSpace c = false) :
    stripWs l = l := by
  have h2 : l.reverse.dropWhile pyIsSpace = l.reverse :=
    dropWhile_eq_self_of_head pyIsSpace fun c hc =>
      hl c (by rwa [List.head?_reverse] at hc)
  unfold stripWs
  rw [dropWhile_eq_self_of_head pyIsSpace hh, h2, List.reverse_reverse]

theorem clean_text_allowed (s : List Char) :
    ∀ c ∈ clean_text s, allowedChar c = true := by
  intro c hc
  unfold clean_text at hc
  rcases collapseWs_mem c (stripWs_mem c hc) with h | rfl
  · exact charFilter_allowed c h
  · decide

theorem clean_text_ws_space (s : List Char) :
    ∀ c ∈ clean_text s, pyIsSpace c = true → c = ' ' := by
  intro c hc hw
  unfold clean_text at hc
  exact collapseWs_ws_space c (stripWs_mem c hc) hw

theorem clean_text_chain (s : List Char) :
    List.Chain' (fun a b => ¬(pyIsSpace a = true ∧ pyIsSpace b = true))
      (clean_text s) := by
  unfold clean_text
  exact stripWs_chain (collapseWs_chain _)

theorem clean_text_head (s : List Char) :
    ∀ c, (clean_text s).head? = some c → pyIsSpace c = false := by
  intro c hc
  unfold clean_text at hc
  exact stripWs_head_false _ c hc

theorem clean_text_last (s : List Char) :
    ∀ c, (clean_text s).getLast? = some c → pyIsSpace c = false := by
  intro c hc
  unfold clean_text at hc
  exact stripWs_last_false _ c hc

/-- C5 — the normalizer is idempotent: applying `clean_text` to its own
output changes nothing, because the output contains none of the trigger
characters of the markup rules, only allowed characters, only single
spaces as whitespace, and no leading or trailing whitespace. -/
theorem c5_clean_text_idempotent (s : List Char) :
    clean_text (clean_text s) = clean_text s := by
  have hall := clean_text_allowed s
  have hnot : ∀ ch : Char, allowedChar ch = false → ch ∉ clean_text s := by
    intro ch hch hmem
    rw [hall ch hmem] at hch
    cases hch
  have h1 : subTag (clean_text s) = clean_text s :=
    subTag_eq_self (hnot '<' (by decide))
  have h2 : subTemplate (clean_text s) = clean_text s :=
    subTemplate_eq_self (hnot '\x7b' (by decide))
  have h3 : subIntLink (clean_text s) = clean_text s :=
    subIntLink_eq_self (hnot '[' (by decide))
  have h4 : subExtLink (clean_text s) = clean_text s :=
    subExtLink_eq_self (hnot '[' (by decide))
  have h5 : charFilter (clean_text s) = clean_text s :=
    charFilter_eq_self hall
  have h6 : collapseWs (clean_text s) = clean_text s :=
    collapseWs_eq_self (clean_text_ws_space s) (clean_text_chain s)
  have h7 : stripWs (clean_text s) = clean_text s :=
    stripWs_eq_self (clean_text_head s) (clean_text_last s)
  show stripWs (collapseWs (charFilter (subExtLink (subIntLink
    (subTemplate (subTag (clean_text s))))))) = clean_text s
  rw [h1, h2, h3, h4, h5, h6, h7]

theorem noAdjacentWs_of_chain : ∀ {l : List Char},
    List.Chain' (fun a b => ¬(pyIsSpace a = true ∧ pyIsSpace b = true)) l →
    noAdjacentWs l = true := by
  intro l
  induction l with
  | nil => intro; rfl
  | cons a xs ih =>
    cases xs with
    | nil => intro; rfl
    | cons b rest =>
      intro h
      rw [List.chain'_cons] at h
      show ((!(pyIsSpace a && pyIsSpace b)) && noAdjacentWs (b :: rest)) = true
      rw [Bool.and_eq_true]
      refine ⟨?_, ih h.2⟩
      cases ha : pyIsSpace a
      · simp
      · cases hb : pyIsSpace b
        · simp
        · exact absurd ⟨ha, hb⟩ h.1

/-- C7 — normalizer output character set: every character of the output
of `clean_text` is in the allowed class, no two consecutive output
characters are both whitespace (so there is no whitespace run of length
≥ 2), and the output has no leading and no trailing whitespace. -/
theorem c7_clean_text_output (s : List Char) :
    (clean_text s).all allowedChar = true ∧
    noAdjacentWs (clean_text s) = true ∧
    ((clean_text s).head?.all fun c => ! pyIsSpace c) = true ∧
    ((clean_text s).getLast?.all fun c => ! pyIsSpace c) = true := by
  refine ⟨?_, noAdjacentWs_of_chain (clean_text_chain s), ?_, ?_⟩
  · rw [List.all_eq_true]
    exact clean_text_allowed s
  · cases hh : (clean_text s).head? with
    | none => rfl
    | some c =>
      have := clean_text_head s c hh
      show (! pyIsSpace c) = true
      rw [this]
      rfl
  · cases hh : (clean_text s).getLast? with
    | none => rfl
    | some c =>
      have := clean_text_last s c hh
      show (! pyIsSpace c) = true
      rw [this]
      rfl

/-! ### Claim C9 -/

theorem nodup_fst_eq {l : List (String × String)}
    (h : (l.map Prod.fst).Nodup) {a b c : String}
    (h1 : (a, b) ∈ l) (h2 : (a, c) ∈ l) : b = c := by
  induction l with
  | nil => cases h1
  | cons p rest ih =>
    rw [List.map_cons, List.nodup_cons] at h
    rcases List.mem_cons.1 h1 with heq1 | h1'
    · rcases List.mem_cons.1 h2 with heq2 | h2'
      · rw [← heq1] at heq2
        injection heq2 with _ hbc
        exact hbc.symm
      · exfalso
        refine h.1 ?_
        rw [← heq1]
        exact List.mem_map.2 ⟨(a, c), h2', rfl⟩
    · rcases List.mem_cons.1 h2 with heq2 | h2'
      · exfalso
        refine h.1 ?_
        rw [← heq2]
        exact List.mem_map.2 ⟨(a, b), h1', rfl⟩
      · exact ih h.2 h1' h2'

/-- C9 — missing input file handling: in the driver of `ngrams_tp.py`,
a configured input whose file is absent yields the warning for that file
and no sentences from `read_sentences_file`, its run item is the printed
warning (so no output artifact is written for it), every other existing
input is still processed exactly by `process_language`, and the whole run
is a total function of the configuration (it never aborts). -/
theorem c9_missing_input_file (tok : List (List Char) → List String)
    (fs : String → Option (List (List Char)))
    (files : List (String × String)) (lang path : String)
    (hmem : (lang, path) ∈ files) (hmiss : fs path = none)
    (hnodup : (files.map Prod.fst).Nodup) :
    NgramsTp.read_sentences_file fs path =
      ([], ["Warning: File not found: " ++ path]) ∧
    NgramsTp.RunItem.missing lang path ∈ NgramsTp.main_run tok fs files ∧
    (∀ out : NgramsTp.LangOutput,
      NgramsTp.RunItem.processed lang out ∉ NgramsTp.main_run tok fs files) ∧
    (∀ lang' path' : String, (lang', path') ∈ files → (fs path').isSome = true →
      NgramsTp.process_language tok fs lang' path' ∈
        NgramsTp.main_run tok fs files) := by
  refine ⟨?_, ?_, ?_, ?_⟩
  · unfold NgramsTp.read_sentences_file
    rw [hmiss]
  · refine List.mem_map.2 ⟨(lang, path), hmem, ?_⟩
    have : (fs path).isSome = false := by rw [hmiss]; rfl
    rw [this]
    rfl
  · intro out hout
    rcases List.mem_map.1 hout with ⟨⟨l', p'⟩, hlp, heq⟩
    by_cases hs : (fs p').isSome = true
    · rw [if_pos hs] at heq
      unfold NgramsTp.process_language at heq
      by_cases hsent : (NgramsTp.read_sentences_file fs p').1 = []
      · rw [if_pos hsent] at heq
        cases heq
      · rw [if_neg hsent] at heq
        injection heq with hl _
        subst hl
        have : p' = path := nodup_fst_eq hnodup hlp hmem
        subst this
        rw [hmiss] at hs
        cases hs
    · rw [if_neg hs] at heq
      cases heq
  · intro lang' path' hlp hs
    refine List.mem_map.2 ⟨(lang', path'), hlp, ?_⟩
    rw [if_pos hs]

/-- Witness for C9: two configured corpora, with the second one's file
missing; its warning item is present in the run. -/
theorem c9_witness :
    NgramsTp.RunItem.missing "french" "f2" ∈
      NgramsTp.main_run (fun _ => [])
        (fun p => if p = "f1" then some [['x']] else none)
        [("english", "f1"), ("french", "f2")] :=
  (c9_missing_input_file (fun _ => [])
    (fun p => if p = "f1" then some [['x']] else none)
    [("english", "f1"), ("french", "f2")] "french" "f2"
    (by decide) (by decide) (by decide)).2.1

end KeyboardSuggestion
